import Mathlib

/-!
Verification development for the tap-facebook extraction engine
(`tap_facebook/__init__.py`).  Dates and timestamps are modelled as
integers (days, resp. seconds); `pendulum.parse`/`str` round-trips are
the identity under this abstraction, and lexicographic comparison of
ISO date strings coincides with the numeric order.
-/

namespace TapFacebook

/-! ## Stream kinds

`initialize_stream` builds an `AdsInsights` stream for every name in
`INSIGHTS_BREAKDOWNS_OPTIONS` and an `IncrementalStream` subclass for the
remaining known names. -/

/-- The stream names that `initialize_stream` maps to the report
(`AdsInsights`) class, i.e. the keys of `INSIGHTS_BREAKDOWNS_OPTIONS`. -/
def reportStreamNames : List String :=
  ["accounts_insights", "ads_insights", "ads_insights_age_gender",
   "ads_insights_device_platform", "ads_insights_placement",
   "ads_insights_age_and_gender", "ads_insights_country",
   "ads_insights_platform_and_device", "ads_insights_region",
   "ads_insights_dma"]

/-- The stream names that `initialize_stream` maps to `IncrementalStream`
subclasses (`Campaigns`, `AdSets`, `Ads`, `AdCreative`, `AdAccounts`). -/
def incrementalStreamNames : List String :=
  ["campaigns", "adsets", "ads", "adcreative", "adaccounts"]

/-- `isinstance(stream, IncrementalStream)` for a stream built by
`initialize_stream` from a known name. -/
def isIncrementalStream (name : String) : Bool :=
  name ∈ incrementalStreamNames

/-! ## Bookmark store (`get_start`, `advance_bookmark`)

The singer state document maps `(tap_stream_id, bookmark_key)` to a stored
date; we model the stored ISO-8601 string as an integer. -/

/-- The state document: an association list from
`(tap_stream_id, bookmark_key)` to the stored date.  `write_bookmark`
shadows by prepending, which is observationally the same as replacing. -/
structure TapState where
  bookmarks : List ((String × String) × Int)
deriving DecidableEq

/-- `singer.get_bookmark(state, tap_stream_id, bookmark_key)`. -/
def getBookmark (st : TapState) (stream key : String) : Option Int :=
  (st.bookmarks.find? (fun p => p.1 == (stream, key))).map (·.2)

/-- `singer.write_bookmark(state, tap_stream_id, bookmark_key, value)`. -/
def writeBookmark (st : TapState) (stream key : String) (v : Int) : TapState :=
  ⟨((stream, key), v) :: st.bookmarks⟩

/-- `get_start(stream, bookmark_key)` (lines 472-483): read the bookmark
from the state document; when it is absent, an `IncrementalStream`
returns `None` while any other stream (the `AdsInsights` report streams)
falls back to the configured global `start_date`. -/
def get_start (name : String) (startDate : Int) (st : TapState)
    (key : String) : Option Int :=
  match getBookmark st name key with
  | some b => some b
  | none => if isIncrementalStream name then none else some startDate

/-- `advance_bookmark(stream, bookmark_key, date)` (lines 486-500): a null
candidate is a no-op; otherwise the bookmark is rewritten exactly when no
current bookmark exists (`get_start` returned `None`) or the candidate is
strictly later than the current bookmark. -/
def advance_bookmark (name : String) (startDate : Int) (st : TapState)
    (key : String) (date : Option Int) : TapState :=
  match date with
  | none => st
  | some d =>
    match get_start name startDate st key with
    | none => writeBookmark st name key d
    | some c => if c < d then writeBookmark st name key d else st

/-! ## Error classifier (`should_retry_api_error`, lines 182-193) -/

/-- The exception shapes distinguished by `should_retry_api_error`.
`facebookRequestError` carries the provider retry metadata
(`api_transient_error()`, `api_error_subcode()`, `http_status()`);
`typeError` carries `str(exception)`; `otherError` stands for any
exception matching none of the tested classes. -/
inductive ApiException where
  | facebookBadObjectError
  | facebookRequestError (apiTransient : Bool) (subcode : Int) (httpStatus : Int)
  | insightsJobTimeout
  | typeError (msg : String)
  | otherError
deriving DecidableEq

/-- `should_retry_api_error(exception)`: `true` means transient
(retryable), `false` means fatal (the backoff wrapper gives up). -/
def should_retry_api_error : ApiException → Bool
  | .facebookBadObjectError => true
  | .facebookRequestError t sub st => t || sub == 99 || st == 500
  | .insightsJobTimeout => true
  | .typeError msg => msg == "string indices must be integers"
  | .otherError => false

/-! ## Polling sleep schedule (`run_job`, lines 586-630)

Each iteration of the polling loop sleeps `sleep_time` seconds and then
doubles `sleep_time` if it is still below
`INSIGHTS_MAX_ASYNC_SLEEP_SECONDS = 300`.  `sleepTime n` is the interval
slept in the n-th iteration (0-based). -/

def INSIGHTS_MAX_ASYNC_SLEEP_SECONDS : Nat := 5 * 60

/-- The interval slept in iteration `n` of the `run_job` polling loop:
starts at 10 and doubles after an iteration exactly when it is still
below the 300-second constant. -/
def sleepTime : Nat → Nat
  | 0 => 10
  | n + 1 =>
    let s := sleepTime n
    if s < INSIGHTS_MAX_ASYNC_SLEEP_SECONDS then 2 * s else s

/-! ## Insights row extraction (`AdsInsights.__iter__`, lines 644-675) -/

/-- One report row as consumed by the row loop: `date_stop` (an ISO date,
modelled as an integer), and the integer conversions of `impressions`
and `spend`. -/
structure InsightsRow where
  date_stop : Int
  impressions : Int
  spend : Int
deriving DecidableEq

/-- The loop state of the row loop: total rows seen (`count`), useful
rows (`useful_count`), the rows actually yielded, and
`min_date_start_for_job`. -/
structure RowAcc where
  count : Nat
  useful : Nat
  emitted : List InsightsRow
  minDateStop : Option Int
deriving DecidableEq

def initRowAcc : RowAcc := ⟨0, 0, [], none⟩

/-- One iteration of the row loop: count the row, update the running
minimum of `date_stop` (strict `<`, so the first minimum is kept on
ties), then skip the row when `impressions == 0 and spend == 0`,
otherwise emit it and count it useful. -/
def stepRow (acc : RowAcc) (r : InsightsRow) : RowAcc :=
  let newMin : Option Int :=
    match acc.minDateStop with
    | none => some r.date_stop
    | some m => if r.date_stop < m then some r.date_stop else some m
  if r.impressions = 0 && r.spend = 0 then
    { acc with count := acc.count + 1, minDateStop := newMin }
  else
    { count := acc.count + 1, useful := acc.useful + 1,
      emitted := acc.emitted ++ [r], minDateStop := newMin }

/-- The whole row loop over the rows of one completed job. -/
def processRows (rows : List InsightsRow) : RowAcc :=
  rows.foldl stepRow initRowAcc

/-! ## `job_params` chunking (`AdsInsights.job_params`, lines 531-574)

Calendar days are integers; `end_date.subtract(days=i)` is subtraction
and `(end_date - buffered_start_date).days` is the integer difference.
Each chunk is its `time_ranges` list of `(since, until)` pairs; the rest
of the yielded parameter dict does not vary over the loop. -/

def INSIGHTS_BATCH_SIZE : Nat := 7

/-- The `time_ranges` list built for one chunk: `loops` single-day
`{since, until}` ranges with `since = until`, newest day (`endDate`)
first. -/
def timeRangesFor (endDate : Int) (loops : Nat) : List (Int × Int) :=
  (List.range loops).map (fun (i : Nat) => (endDate - (i : Int), endDate - (i : Int)))

/-- The `while buffered_start_date <= end_date` loop of `job_params`:
each pass emits a chunk of `min (loop_days + 1) 7` day-ranges walking
backward from the current `end_date`, and continues with
`end_date - 7` unless `loop_days < 7`, in which case it breaks. -/
def job_params_loop (bufferedStart : Int) : Nat → Int → List (List (Int × Int))
  | 0, _ => []
  | fuel + 1, endDate =>
    if bufferedStart ≤ endDate then
      if (endDate - bufferedStart).toNat < INSIGHTS_BATCH_SIZE then
        [timeRangesFor endDate ((endDate - bufferedStart).toNat + 1)]
      else
        timeRangesFor endDate INSIGHTS_BATCH_SIZE ::
          job_params_loop bufferedStart fuel (endDate - INSIGHTS_BATCH_SIZE)
    else []

/-- The chunk loop of `job_params`, entered with fuel exceeding the day
distance: every continuing pass shrinks the day distance by 7 while
spending one unit of fuel, so the fuel bound is never the terminating
condition (`job_params_loop_congr` below). -/
def job_params_chunks (bufferedStart endDate : Int) : List (List (Int × Int)) :=
  job_params_loop bufferedStart ((endDate - bufferedStart).toNat + 1) endDate

/-- `job_params` proper: `buffered_start_date = start_date - buffer_days`
(default 28), then the chunk loop toward the end boundary. -/
def job_params (startDate : Int) (bufferDays : Int) (endDate : Int) :
    List (List (Int × Int)) :=
  job_params_chunks (startDate - bufferDays) endDate

/-! ## Bookmark candidate of one chunk (`AdsInsights.__iter__`) -/

/-- The fallback loop (lines 670-673): when no row was seen, walk the
time_ranges of the chunk, overwriting the candidate with the until
field of each range (a to_date_string result, hence a nonempty — truthy
— string), ending at the until of the last range. -/
def fallbackUntil (timeRanges : List (Int × Int)) : Option Int :=
  timeRanges.foldl (fun _ tr => some tr.2) none

/-- The candidate date handed to `advance_bookmark` for one chunk: the
tracked minimum `date_stop` when the job returned rows, otherwise the
fallback over the time_ranges of the chunk. -/
def bookmarkCandidate (timeRanges : List (Int × Int))
    (rows : List InsightsRow) : Option Int :=
  match (processRows rows).minDateStop with
  | some m => some m
  | none => fallbackUntil timeRanges

/-! ## Batch dispatcher (`fetch_creative_in_batch`, lines 347-403)

Identifiers are modelled as integers.  The `info` dict is one shared
mutable cell: every queued failure callback reads
the processing_id entry of info as of the moment its batch is executed, so each
executed batch is recorded together with the comma-joined list
(modelled as the list itself) current at that execution. -/

/-- The dispatcher loop state: the pending batch, the executed batches
paired with the `processing_id` context current at their execution, the
cumulative `processing_id_list`, the current value of
the processing_id entry of info, `batch_count`, and the divisors of the
progress-percentage divisions performed so far. -/
structure BatchState where
  batch : List Int
  executed : List (List Int × List Int)
  processing : List Int
  ctx : List Int
  count : Nat
  divisors : List Nat
deriving DecidableEq

def batch_request_size : Nat := 50

/-- One iteration of the dispatcher loop over `ad_object_id_list`: when
`batch_count % 50 == 0`, execute the pending batch (with the context
current at that moment) and log progress (dividing by `total`); then set
the processing_id entry of info to the join of `processing_id_list`, queue the
call, and bump the counters. -/
def batchStep (total : Nat) (s : BatchState) (id : Int) : BatchState :=
  let s :=
    if s.count % batch_request_size = 0 then
      { s with executed := s.executed ++ [(s.batch, s.ctx)], batch := [],
               divisors := s.divisors ++ [total] }
    else s
  { s with ctx := s.processing, batch := s.batch ++ [id],
           processing := s.processing ++ [id], count := s.count + 1 }

/-- `fetch_creative_in_batch(ad_object_id_list, params)`: the loop over
all identifiers followed by the final `api_batch.execute()` and final
progress log. -/
def fetch_creative_in_batch (ids : List Int) : BatchState :=
  let s := ids.foldl (batchStep ids.length) ⟨[], [], [], [], 0, []⟩
  { s with executed := s.executed ++ [(s.batch, s.ctx)], batch := [],
           divisors := s.divisors ++ [ids.length] }

/-- The executed batches that actually dispatched identifiers (the first
`execute()` call always fires on an empty just-created batch). -/
def dispatchedGroups (ids : List Int) : List (List Int × List Int) :=
  (fetch_creative_in_batch ids).executed.filter (fun g => !g.1.isEmpty)

/-! ## Creative id collection (`IncrementalStream.__iter__`, lines 316-325) -/

/-- The `creative_id_set` accumulation over the listed ads (each ad
contributes its creative id; a Python set keeps one copy), flattened to
the dispatched list.  Insertion order stands in for the iteration order
of the Python set, which the claims never depend on. -/
def collectCreativeIds (ads : List Int) : List Int :=
  ads.foldl (fun acc a => if a ∈ acc then acc else acc ++ [a]) []

/-- The adcreative branch: collect the distinct creative ids and invoke
the batch fetch only when the collected set is nonempty. -/
def adcreativeSync (ads : List Int) : Option BatchState :=
  let ids := collectCreativeIds ads
  if ids.isEmpty then none else some (fetch_creative_in_batch ids)

/-! ## Incremental list request filters (`IncrementalStream.__iter__`,
lines 268-302) -/

/-- One entry of the `filtering` request parameter. -/
inductive ReqFilter where
  | idList (ids : List Int)
  | timeRange (lo hi : Int)
  | onlyActive
deriving DecidableEq

/-- The configuration values the filter construction reads.  `specified_ids`
is truthy exactly when nonempty; start/end dates are modelled by their
`int_timestamp` values, with `.add(days=1)` adding 86400 seconds. -/
structure IterConfig where
  specified_ids : List Int
  only_time_range : Bool
  only_active : Bool
  startTs : Int
  endTs : Int
deriving DecidableEq

/-- The mutable, status-bearing entity types that receive the
`ONLY_ACTIVE` filter. -/
def statusBearingNames : List String :=
  ["ads", "adsets", "campaigns", "adcreative"]

/-- The `filtering` list built by `IncrementalStream.__iter__`: the
specified-ids allow-list when configured, otherwise the optional
time-range filter, augmented with `ONLY_ACTIVE` when `only_active` is
set and the stream is status-bearing. -/
def buildFiltering (cfg : IterConfig) (name : String) : List ReqFilter :=
  if !cfg.specified_ids.isEmpty then
    [.idList cfg.specified_ids]
  else
    let fs : List ReqFilter :=
      if cfg.only_time_range then
        [.timeRange cfg.startTs (cfg.endTs + 86400 - 1)]
      else []
    if cfg.only_active && name ∈ statusBearingNames then
      if !fs.isEmpty then fs ++ [.onlyActive] else [.onlyActive]
    else fs

/-- The emission condition of the row loop: a row is kept unless both
`int(rec['impressions'])` and `int(rec['spend'])` are zero. -/
def keepRow (r : InsightsRow) : Bool :=
  !(decide (r.impressions = 0) && decide (r.spend = 0))

/-- The running-minimum update performed on `min_date_start_for_job` by
each row: take the new date when no minimum exists yet or the new date
is strictly smaller; on a tie the old (first-seen) value is kept. -/
def minUpd (m : Option Int) (d : Int) : Option Int :=
  match m with
  | none => some d
  | some m => if d < m then some d else some m

/-- The recorded failure contexts of a batch run, relative to the
identifiers dispatched before it: each executed batch in the list
carries as context the cumulative identifier prefix current at its
execution — all identifiers queued since the start of the run up to,
but excluding, the last identifier added before the execution — rather
than just its own group. -/
def CtxAccum (acc : List Int) : List (List Int × List Int) → Prop
  | [] => True
  | gc :: rest => gc.2 = (acc ++ gc.1).dropLast ∧ CtxAccum (acc ++ gc.1) rest

/-- The loop invariant of `fetch_creative_in_batch` after processing the
identifier prefix `p` with progress divisor `total`. -/
def BatchInv (total : Nat) (p : List Int) (s : BatchState) : Prop :=
  s.count = p.length
  ∧ s.processing = p
  ∧ s.ctx = p.dropLast
  ∧ (s.executed.map (·.1)).flatten ++ s.batch = p
  ∧ s.batch.length = (if p.length = 0 then 0 else (p.length - 1) % 50 + 1)
  ∧ (∀ g ∈ s.executed, g.1.length = 0 ∨ g.1.length = 50)
  ∧ CtxAccum [] s.executed
  ∧ s.divisors = List.replicate s.executed.length total

/-! ## Supporting lemmas -/

lemma getBookmark_writeBookmark (st : TapState) (stream key : String) (v : Int) :
    getBookmark (writeBookmark st stream key v) stream key = some v := by
  simp [getBookmark, writeBookmark, List.find?]

lemma get_start_writeBookmark (name key : String) (startDate : Int)
    (st : TapState) (v : Int) :
    get_start name startDate (writeBookmark st name key v) key = some v := by
  simp [get_start, getBookmark_writeBookmark]

/-! ## Claim theorems -/

/-- Claim C1: `advance_bookmark` is monotonic and idempotent.  For every
state document, entity-type name and bookmark key: a null candidate is a
no-op; a candidate at most the current bookmark (as read by `get_start`)
leaves the state unchanged; the resulting bookmark never decreases; a
candidate strictly later than the current bookmark, or arriving when
`get_start` finds no bookmark, replaces the stored value with the
candidate; and advancing twice with the same candidate equals advancing
once. -/
theorem advance_bookmark_monotone_idempotent (name key : String)
    (startDate : Int) (st : TapState) :
    advance_bookmark name startDate st key none = st
    ∧ (∀ d c, get_start name startDate st key = some c → d ≤ c →
        advance_bookmark name startDate st key (some d) = st)
    ∧ (∀ d c, get_start name startDate st key = some c →
        ∃ c2, get_start name startDate
            (advance_bookmark name startDate st key (some d)) key = some c2
          ∧ c ≤ c2)
    ∧ (∀ d c, get_start name startDate st key = some c → c < d →
        getBookmark (advance_bookmark name startDate st key (some d)) name key
          = some d)
    ∧ (∀ d, get_start name startDate st key = none →
        getBookmark (advance_bookmark name startDate st key (some d)) name key
          = some d)
    ∧ (∀ d, advance_bookmark name startDate
          (advance_bookmark name startDate st key d) key d
        = advance_bookmark name startDate st key d) := by
  refine ⟨rfl, ?_, ?_, ?_, ?_, ?_⟩
  · intro d c hc hle
    simp [advance_bookmark, hc, not_lt.mpr hle]
  · intro d c hc
    by_cases hlt : c < d
    · refine ⟨d, ?_, le_of_lt hlt⟩
      simp [advance_bookmark, hc, hlt, get_start_writeBookmark]
    · refine ⟨c, ?_, le_refl c⟩
      simp [advance_bookmark, hc, hlt]
  · intro d c hc hlt
    simp [advance_bookmark, hc, hlt, getBookmark_writeBookmark]
  · intro d hnone
    simp [advance_bookmark, hnone, getBookmark_writeBookmark]
  · intro d
    match d with
    | none => rfl
    | some d =>
      cases hc : get_start name startDate st key with
      | none =>
        simp [advance_bookmark, hc, get_start_writeBookmark]
      | some c =>
        by_cases hlt : c < d
        · simp [advance_bookmark, hc, hlt, get_start_writeBookmark]
        · simp [advance_bookmark, hc, hlt]

/-- Claim C1 witness: with the start date 5 standing in for a missing
bookmark of the report stream, a candidate 3 that is not later leaves the
empty state unchanged. -/
theorem advance_bookmark_monotone_idempotent_witness :
    advance_bookmark "ads_insights" 5 ⟨[]⟩ "date_start" (some 3) = ⟨[]⟩ :=
  (advance_bookmark_monotone_idempotent "ads_insights" "date_start" 5
    ⟨[]⟩).2.1 3 5 (by decide) (by decide)

/-- Claim C2: the error classifier is pure (it is a function of the
exception shape alone) and matches the documented truth table: the
malformed-response `TypeError`, `FacebookBadObjectError`, a request
error that is provider-transient or has subcode 99 or HTTP status 500,
and `InsightsJobTimeout` are transient; everything else — in particular
a generic HTTP 400 request error — is fatal. -/
theorem should_retry_api_error_truth_table :
    should_retry_api_error (.typeError "string indices must be integers") = true
    ∧ should_retry_api_error .facebookBadObjectError = true
    ∧ (∀ sub st, should_retry_api_error (.facebookRequestError true sub st) = true)
    ∧ (∀ t st, should_retry_api_error (.facebookRequestError t 99 st) = true)
    ∧ (∀ t sub, should_retry_api_error (.facebookRequestError t sub 500) = true)
    ∧ should_retry_api_error .insightsJobTimeout = true
    ∧ (∀ t sub st, t = false → sub ≠ 99 → st ≠ 500 →
        should_retry_api_error (.facebookRequestError t sub st) = false)
    ∧ (∀ msg, msg ≠ "string indices must be integers" →
        should_retry_api_error (.typeError msg) = false)
    ∧ should_retry_api_error .otherError = false
    ∧ should_retry_api_error (.facebookRequestError false 0 400) = false := by
  refine ⟨rfl, rfl, ?_, ?_, ?_, rfl, ?_, ?_, rfl, by decide⟩
  · intro sub st; simp [should_retry_api_error]
  · intro t st; simp [should_retry_api_error]
  · intro t sub; simp [should_retry_api_error]
  · intro t sub st ht h1 h2
    simp [should_retry_api_error, ht, h1, h2]
  · intro msg h
    simp [should_retry_api_error, h]

/-- Claim C2 witness: a request error that is not provider-transient,
with subcode 3 and HTTP status 400, is classified fatal. -/
theorem should_retry_api_error_truth_table_witness :
    should_retry_api_error (.facebookRequestError false 3 400) = false :=
  should_retry_api_error_truth_table.2.2.2.2.2.2.1 false 3 400 rfl
    (by decide) (by decide)

lemma sleepTime_succ (n : Nat) :
    sleepTime (n + 1) =
      if sleepTime n < INSIGHTS_MAX_ASYNC_SLEEP_SECONDS then 2 * sleepTime n
      else sleepTime n := rfl

lemma sleepTime_mem (n : Nat) :
    sleepTime n ∈ [10, 20, 40, 80, 160, 320] := by
  induction n with
  | zero => simp [sleepTime]
  | succ n ih =>
    rw [sleepTime_succ]
    simp only [List.mem_cons, List.not_mem_nil, or_false] at ih
    rcases ih with h | h | h | h | h | h <;> rw [h] <;> decide

/-- Claim C5 counterexample: in the sixth polling iteration the slept
interval is 320 seconds, exceeding the 5-minute (300-second) constant:
the interval is slept before the cap test, and the test only stops
further doubling. -/
theorem run_job_sleep_exceeds_cap :
    sleepTime 5 = 320 ∧ ¬ sleepTime 5 ≤ INSIGHTS_MAX_ASYNC_SLEEP_SECONDS := by
  decide

/-- Claim C5 as amended: the sleep interval starts at 10 seconds and
doubles after an iteration exactly while it is still below the
300-second constant; once the interval reaches 320 = 2 * 160 seconds it
stays there, so every slept interval is at most 320 seconds — not 300:
the 320-second interval of iteration 5 onward exceeds the documented
cap. -/
theorem run_job_sleep_schedule (n : Nat) :
    sleepTime 0 = 10
    ∧ (sleepTime n < INSIGHTS_MAX_ASYNC_SLEEP_SECONDS →
        sleepTime (n + 1) = 2 * sleepTime n)
    ∧ (¬ sleepTime n < INSIGHTS_MAX_ASYNC_SLEEP_SECONDS →
        sleepTime (n + 1) = sleepTime n)
    ∧ sleepTime n ≤ 320 := by
  refine ⟨rfl, ?_, ?_, ?_⟩
  · intro h; rw [sleepTime_succ, if_pos h]
  · intro h; rw [sleepTime_succ, if_neg h]
  · have h := sleepTime_mem n
    simp only [List.mem_cons, List.not_mem_nil, or_false] at h
    rcases h with h | h | h | h | h | h <;> rw [h] <;> decide

/-- Claim C5 witness: iteration 3 sleeps 80 < 300 seconds, so iteration
4 sleeps twice as long. -/
theorem run_job_sleep_schedule_witness :
    sleepTime 4 = 2 * sleepTime 3 :=
  (run_job_sleep_schedule 3).2.1 (by decide)

/-- Claim C6 counterexample: with an empty state document the report
stream `ads_insights` does not return "no bookmark" — it falls back to
the configured start date (here 5) — while the non-report stream `ads`
is the one that returns `none`: the fallback direction in the claim is
inverted relative to `get_start`. -/
theorem get_start_fallback_counterexample :
    ¬ get_start "ads_insights" 5 ⟨[]⟩ "date_start" = none
    ∧ get_start "ads_insights" 5 ⟨[]⟩ "date_start" = some 5
    ∧ get_start "ads" 5 ⟨[]⟩ "updated_time" = none := by
  decide

/-- Claim C6 as amended: `get_start` reads the bookmark for the stream
and key from the state document; when the bookmark is absent, the
non-report (`IncrementalStream`) entity types return "no bookmark"
while the report (insights) entity types fall back to the configured
global start date. -/
theorem get_start_fallback (name key : String) (startDate : Int)
    (st : TapState) :
    (∀ b, getBookmark st name key = some b →
        get_start name startDate st key = some b)
    ∧ (getBookmark st name key = none → isIncrementalStream name = true →
        get_start name startDate st key = none)
    ∧ (getBookmark st name key = none → isIncrementalStream name = false →
        get_start name startDate st key = some startDate)
    ∧ (∀ rn ∈ reportStreamNames, isIncrementalStream rn = false) := by
  refine ⟨?_, ?_, ?_, by decide⟩
  · intro b h; simp [get_start, h]
  · intro h hinc; simp [get_start, h, hinc]
  · intro h hninc; simp [get_start, h, hninc]

/-- Claim C6 witness: a stored bookmark 9 is returned as-is for the
`ads_insights` stream. -/
theorem get_start_fallback_witness :
    get_start "ads_insights" 5 ⟨[(("ads_insights", "date_start"), 9)]⟩
      "date_start" = some 9 :=
  (get_start_fallback "ads_insights" "date_start" 5
    ⟨[(("ads_insights", "date_start"), 9)]⟩).1 9 (by decide)


lemma stepRow_count (acc : RowAcc) (r : InsightsRow) :
    (stepRow acc r).count = acc.count + 1 := by
  simp only [stepRow]
  split <;> rfl

lemma stepRow_drop (acc : RowAcc) (r : InsightsRow) (h : keepRow r = false) :
    (stepRow acc r).emitted = acc.emitted ∧ (stepRow acc r).useful = acc.useful := by
  simp only [keepRow] at h
  simp at h
  simp [stepRow, h.1, h.2]

lemma stepRow_keep (acc : RowAcc) (r : InsightsRow) (h : keepRow r = true) :
    (stepRow acc r).emitted = acc.emitted ++ [r]
    ∧ (stepRow acc r).useful = acc.useful + 1 := by
  simp only [keepRow] at h
  simp at h
  have hn : ¬(r.impressions = 0 ∧ r.spend = 0) := by tauto
  simp [stepRow, hn]

lemma foldl_stepRow_spec (rows : List InsightsRow) : ∀ acc : RowAcc,
    (rows.foldl stepRow acc).count = acc.count + rows.length
    ∧ (rows.foldl stepRow acc).emitted = acc.emitted ++ rows.filter keepRow
    ∧ (rows.foldl stepRow acc).useful
        = acc.useful + (rows.filter keepRow).length := by
  induction rows with
  | nil => intro acc; simp
  | cons r rows ih =>
    intro acc
    obtain ⟨h1, h2, h3⟩ := ih (stepRow acc r)
    simp only [List.foldl_cons]
    cases hk : keepRow r with
    | false =>
      obtain ⟨he, hu⟩ := stepRow_drop acc r hk
      refine ⟨?_, ?_, ?_⟩
      · rw [h1, stepRow_count]; simp [Nat.add_assoc, Nat.add_comm 1]
      · rw [h2, he, List.filter_cons_of_neg (by simp [hk])]
      · rw [h3, hu, List.filter_cons_of_neg (by simp [hk])]
    | true =>
      obtain ⟨he, hu⟩ := stepRow_keep acc r hk
      refine ⟨?_, ?_, ?_⟩
      · rw [h1, stepRow_count]; simp [Nat.add_assoc, Nat.add_comm 1]
      · rw [h2, he, List.filter_cons_of_pos (by simp [hk])]
        simp
      · rw [h3, hu, List.filter_cons_of_pos (by simp [hk])]
        simp [Nat.add_assoc, Nat.add_comm 1]

/-- Claim C4: a report row with zero impressions and zero spend is
excluded from the emitted records but still increments the
total-rows-seen counter; any other row — in particular one with zero
impressions and positive spend, or any nonzero impressions — is emitted
and counted as useful.  Over a whole job the counter equals the number
of rows, and the emitted records are exactly the rows passing the
filter. -/
theorem insights_row_filtering (acc : RowAcc) (r : InsightsRow)
    (rows : List InsightsRow) :
    (r.impressions = 0 ∧ r.spend = 0 →
        (stepRow acc r).count = acc.count + 1
        ∧ (stepRow acc r).emitted = acc.emitted
        ∧ (stepRow acc r).useful = acc.useful)
    ∧ (¬(r.impressions = 0 ∧ r.spend = 0) →
        (stepRow acc r).count = acc.count + 1
        ∧ (stepRow acc r).emitted = acc.emitted ++ [r]
        ∧ (stepRow acc r).useful = acc.useful + 1)
    ∧ (processRows rows).count = rows.length
    ∧ (processRows rows).emitted = rows.filter keepRow
    ∧ (processRows rows).useful = (processRows rows).emitted.length
    ∧ (∀ x ∈ (processRows rows).emitted,
        ¬(x.impressions = 0 ∧ x.spend = 0)) := by
  obtain ⟨hc, he, hu⟩ := foldl_stepRow_spec rows initRowAcc
  have hkeep : ∀ x : InsightsRow,
      keepRow x = true ↔ ¬(x.impressions = 0 ∧ x.spend = 0) := by
    intro x
    simp only [keepRow]
    simp
    tauto
  refine ⟨?_, ?_, ?_, ?_, ?_, ?_⟩
  · intro h
    have hk : keepRow r = false := by
      simp [keepRow, h.1, h.2]
    obtain ⟨h1, h2⟩ := stepRow_drop acc r hk
    exact ⟨stepRow_count acc r, h1, h2⟩
  · intro h
    have hk : keepRow r = true := (hkeep r).mpr h
    obtain ⟨h1, h2⟩ := stepRow_keep acc r hk
    exact ⟨stepRow_count acc r, h1, h2⟩
  · simpa [processRows, initRowAcc] using hc
  · simpa [processRows, initRowAcc] using he
  · rw [processRows] at *
    rw [hu, he]
    simp [initRowAcc]
  · intro x hx
    rw [processRows] at hx
    rw [he] at hx
    simp only [initRowAcc, List.nil_append] at hx
    exact (hkeep x).mp (List.of_mem_filter hx)

/-- Claim C4 witness: a zero-impression, positive-spend row is emitted;
a zero-impression, zero-spend row is dropped. -/
theorem insights_row_filtering_witness :
    (stepRow initRowAcc ⟨5, 0, 3⟩).emitted = initRowAcc.emitted ++ [⟨5, 0, 3⟩]
    ∧ (stepRow initRowAcc ⟨7, 0, 0⟩).emitted = initRowAcc.emitted :=
  ⟨((insights_row_filtering initRowAcc ⟨5, 0, 3⟩ []).2.1 (by decide)).2.1,
   ((insights_row_filtering initRowAcc ⟨7, 0, 0⟩ []).1 (by decide)).2.1⟩


lemma stepRow_minDateStop (acc : RowAcc) (r : InsightsRow) :
    (stepRow acc r).minDateStop = minUpd acc.minDateStop r.date_stop := by
  by_cases h : keepRow r = true
  · simp only [keepRow] at h
    simp at h
    have hn : ¬(r.impressions = 0 ∧ r.spend = 0) := by tauto
    simp [stepRow, hn, minUpd]
  · simp only [keepRow] at h
    simp at h
    simp [stepRow, h.1, h.2, minUpd]

lemma foldl_minDateStop (rows : List InsightsRow) : ∀ acc : RowAcc,
    (rows.foldl stepRow acc).minDateStop
      = rows.foldl (fun m r => minUpd m r.date_stop) acc.minDateStop := by
  induction rows with
  | nil => intro acc; rfl
  | cons r rows ih =>
    intro acc
    simp only [List.foldl_cons]
    rw [ih (stepRow acc r), stepRow_minDateStop]

lemma minUpd_fold_spec (rows : List InsightsRow) : ∀ a : Int,
    ∃ m, rows.foldl (fun m r => minUpd m r.date_stop) (some a) = some m
      ∧ (m = a ∨ m ∈ rows.map (·.date_stop))
      ∧ m ≤ a ∧ ∀ r ∈ rows, m ≤ r.date_stop := by
  induction rows with
  | nil =>
    intro a
    exact ⟨a, rfl, Or.inl rfl, le_refl a, by simp⟩
  | cons r rows ih =>
    intro a
    simp only [List.foldl_cons]
    by_cases h : r.date_stop < a
    · obtain ⟨m, hm, hmem, hle, hall⟩ := ih r.date_stop
      refine ⟨m, ?_, ?_, ?_, ?_⟩
      · rw [minUpd, if_pos h] at *
        exact hm
      · rcases hmem with h1 | h1
        · exact Or.inr (by simp [h1])
        · exact Or.inr (by simp; right; simpa using h1)
      · exact le_trans hle (le_of_lt h)
      · intro x hx
        rcases List.mem_cons.mp hx with h1 | h1
        · rw [h1]; exact hle
        · exact hall x h1
    · obtain ⟨m, hm, hmem, hle, hall⟩ := ih a
      refine ⟨m, ?_, ?_, ?_, ?_⟩
      · rw [minUpd, if_neg h] at *
        exact hm
      · rcases hmem with h1 | h1
        · exact Or.inl h1
        · exact Or.inr (by simp; right; simpa using h1)
      · exact hle
      · intro x hx
        rcases List.mem_cons.mp hx with h1 | h1
        · rw [h1]
          exact le_trans hle (not_lt.mp h)
        · exact hall x h1

lemma fallbackUntil_eq_getLast (l : List (Int × Int)) :
    fallbackUntil l = (l.getLast?).map (·.2) := by
  rw [fallbackUntil]
  suffices hgen : ∀ (l : List (Int × Int)) (i : Option Int), l ≠ [] →
      l.foldl (fun _ tr => some tr.2) i = (l.getLast?).map (·.2) by
    cases l with
    | nil => rfl
    | cons x xs => exact hgen (x :: xs) none (by simp)
  intro l
  induction l with
  | nil => intro i h; exact absurd rfl h
  | cons x xs ih =>
    intro i _
    cases xs with
    | nil => rfl
    | cons y ys =>
      rw [List.foldl_cons, ih (some x.2) (by simp), List.getLast?_cons_cons]

/-- Claim C7: for every completed chunk the bookmark candidate passed to
`advance_bookmark` is the minimum `date_stop` over the rows of the job
(the fold keeps the first minimum found on ties, which is the common
value), and when the job returns zero rows the candidate falls back to
the `until` date of the last of the time ranges listed for the chunk
(the fallback loop overwrites the candidate with the `until` of each
range in order). -/
theorem bookmark_candidate_spec (timeRanges : List (Int × Int))
    (rows : List InsightsRow) :
    (rows ≠ [] →
        ∃ m, bookmarkCandidate timeRanges rows = some m
          ∧ m ∈ rows.map (·.date_stop)
          ∧ ∀ r ∈ rows, m ≤ r.date_stop)
    ∧ (rows = [] → ∀ tr, timeRanges.getLast? = some tr →
        bookmarkCandidate timeRanges rows = some tr.2) := by
  constructor
  · intro hne
    cases rows with
    | nil => exact absurd rfl hne
    | cons r rest =>
      obtain ⟨m, hm, hmem, hle, hall⟩ := minUpd_fold_spec rest r.date_stop
      refine ⟨m, ?_, ?_, ?_⟩
      · rw [bookmarkCandidate, processRows, foldl_minDateStop]
        simp only [List.foldl_cons, initRowAcc]
        rw [show minUpd none r.date_stop = some r.date_stop from rfl, hm]
      · rcases hmem with h1 | h1
        · simp [h1]
        · simp only [List.map_cons, List.mem_cons]
          exact Or.inr h1
      · intro x hx
        rcases List.mem_cons.mp hx with h1 | h1
        · rw [h1]; exact hle
        · exact hall x h1
  · intro hrows tr htr
    subst hrows
    rw [bookmarkCandidate, processRows]
    simp only [List.foldl_nil, initRowAcc]
    rw [fallbackUntil_eq_getLast, htr]
    rfl

/-- Claim C7 witness: three rows with minimum `date_stop` 7 give
candidate 7; an empty result over ranges ending at day 3 gives
candidate 3. -/
theorem bookmark_candidate_spec_witness :
    bookmarkCandidate [(5, 5), (4, 4), (3, 3)] [⟨9, 0, 0⟩, ⟨7, 1, 2⟩, ⟨8, 0, 0⟩]
      = some 7
    ∧ bookmarkCandidate [(5, 5), (4, 4), (3, 3)] [] = some 3 := by
  constructor
  · obtain ⟨m, hm, hmem, hall⟩ :=
      (bookmark_candidate_spec [(5, 5), (4, 4), (3, 3)]
        [⟨9, 0, 0⟩, ⟨7, 1, 2⟩, ⟨8, 0, 0⟩]).1 (by decide)
    have : m = 7 := by
      have h7 : m ≤ 7 := hall ⟨7, 1, 2⟩ (by decide)
      simp at hmem
      omega
    rw [hm, this]
  · exact (bookmark_candidate_spec [(5, 5), (4, 4), (3, 3)] []).2 rfl (3, 3)
      (by decide)

lemma timeRangesFor_length (d : Int) (n : Nat) :
    (timeRangesFor d n).length = n := by
  simp [timeRangesFor]

lemma mem_timeRangesFor {r : Int × Int} {d : Int} {n : Nat} :
    r ∈ timeRangesFor d n ↔ ∃ i : Nat, i < n ∧ r = (d - i, d - i) := by
  simp [timeRangesFor, eq_comm]

lemma timeRangesFor_pairwise (d : Int) (n : Nat) :
    (timeRangesFor d n).Pairwise (fun a b => b.1 < a.1) := by
  rw [timeRangesFor]
  refine List.Pairwise.map _ ?_ (List.pairwise_lt_range n)
  intro i j hij
  simp only
  omega

lemma job_params_loop_shape (bs : Int) : ∀ (fuel : Nat) (e : Int),
    ∀ c ∈ job_params_loop bs fuel e,
      ∃ d k, 1 ≤ k ∧ k ≤ INSIGHTS_BATCH_SIZE ∧ c = timeRangesFor d k := by
  intro fuel
  induction fuel with
  | zero =>
    intro e c hc
    simp [job_params_loop] at hc
  | succ fuel ih =>
    intro e c hc
    simp only [job_params_loop] at hc
    by_cases h1 : bs ≤ e
    · rw [if_pos h1] at hc
      by_cases h2 : (e - bs).toNat < INSIGHTS_BATCH_SIZE
      · rw [if_pos h2] at hc
        simp only [List.mem_singleton] at hc
        exact ⟨e, (e - bs).toNat + 1, by omega, by omega, hc⟩
      · rw [if_neg h2] at hc
        rcases List.mem_cons.mp hc with h3 | h3
        · exact ⟨e, INSIGHTS_BATCH_SIZE, by decide, le_refl _, h3⟩
        · exact ih (e - INSIGHTS_BATCH_SIZE) c h3
    · rw [if_neg h1] at hc
      simp at hc

lemma job_params_loop_ub (bs : Int) : ∀ (fuel : Nat) (e : Int),
    ∀ c ∈ job_params_loop bs fuel e, ∀ r ∈ c, r.1 ≤ e := by
  intro fuel
  induction fuel with
  | zero =>
    intro e c hc
    simp [job_params_loop] at hc
  | succ fuel ih =>
    intro e c hc r hr
    simp only [job_params_loop] at hc
    by_cases h1 : bs ≤ e
    · rw [if_pos h1] at hc
      by_cases h2 : (e - bs).toNat < INSIGHTS_BATCH_SIZE
      · rw [if_pos h2] at hc
        simp only [List.mem_singleton] at hc
        subst hc
        obtain ⟨i, _, hi⟩ := mem_timeRangesFor.mp hr
        rw [hi]
        simp only
        omega
      · rw [if_neg h2] at hc
        rcases List.mem_cons.mp hc with h3 | h3
        · subst h3
          obtain ⟨i, _, hi⟩ := mem_timeRangesFor.mp hr
          rw [hi]
          simp only
          omega
        · have := ih (e - INSIGHTS_BATCH_SIZE) c h3 r hr
          simp only [INSIGHTS_BATCH_SIZE] at this
          omega
    · rw [if_neg h1] at hc
      simp at hc

lemma job_params_loop_pairwise (bs : Int) : ∀ (fuel : Nat) (e : Int),
    ((job_params_loop bs fuel e).flatten).Pairwise (fun a b => b.1 < a.1) := by
  intro fuel
  induction fuel with
  | zero =>
    intro e
    simp [job_params_loop]
  | succ fuel ih =>
    intro e
    simp only [job_params_loop]
    by_cases h1 : bs ≤ e
    · rw [if_pos h1]
      by_cases h2 : (e - bs).toNat < INSIGHTS_BATCH_SIZE
      · rw [if_pos h2]
        simpa [List.flatten] using timeRangesFor_pairwise e ((e - bs).toNat + 1)
      · rw [if_neg h2]
        rw [List.flatten_cons, List.pairwise_append]
        refine ⟨timeRangesFor_pairwise e INSIGHTS_BATCH_SIZE, ih _, ?_⟩
        intro a ha b hb
        obtain ⟨i, hin, hi⟩ := mem_timeRangesFor.mp ha
        obtain ⟨c, hc, hbc⟩ := List.mem_flatten.mp hb
        have hub := job_params_loop_ub bs fuel (e - INSIGHTS_BATCH_SIZE) c hc b hbc
        rw [hi]
        simp only [INSIGHTS_BATCH_SIZE] at *
        omega
    · rw [if_neg h1]
      simp

lemma job_params_loop_last (bs : Int) : ∀ (fuel : Nat) (e : Int),
    (e - bs).toNat < fuel → bs ≤ e →
    ∃ c, (job_params_loop bs fuel e).getLast? = some c ∧ (bs, bs) ∈ c := by
  intro fuel
  induction fuel with
  | zero =>
    intro e hf _
    omega
  | succ fuel ih =>
    intro e hf hle
    simp only [job_params_loop, if_pos hle]
    by_cases h2 : (e - bs).toNat < INSIGHTS_BATCH_SIZE
    · rw [if_pos h2]
      refine ⟨timeRangesFor e ((e - bs).toNat + 1), rfl, ?_⟩
      refine mem_timeRangesFor.mpr ⟨(e - bs).toNat, by omega, ?_⟩
      have : ((e - bs).toNat : Int) = e - bs := by omega
      rw [this]
      simp [Prod.ext_iff]
    · rw [if_neg h2]
      have hle2 : bs ≤ e - INSIGHTS_BATCH_SIZE := by
        simp only [INSIGHTS_BATCH_SIZE] at *
        omega
      have hf2 : (e - INSIGHTS_BATCH_SIZE - bs).toNat < fuel := by
        simp only [INSIGHTS_BATCH_SIZE] at *
        omega
      obtain ⟨c, hc, hmem⟩ := ih (e - INSIGHTS_BATCH_SIZE) hf2 hle2
      refine ⟨c, ?_, hmem⟩
      cases hr : job_params_loop bs fuel (e - INSIGHTS_BATCH_SIZE) with
      | nil => rw [hr] at hc; simp at hc
      | cons y ys =>
        rw [hr] at hc
        rw [List.getLast?_cons_cons]
        exact hc

/-- Claim C3: `job_params` walks backward from the end date toward
`buffered_start = start_date - buffer_days` in chunks of at most 7
single-day ranges with `since = until`, ordered strictly newest day
first within and across chunks, and the final emitted chunk reaches
`buffered_start` (its oldest range is exactly the buffered-start day).
For a backfill window of 20 days (buffered start 0, end 20) exactly 3
chunks of day-counts [7, 7, 7] are produced, covering 21 ≥ 20 distinct
days, strictly newest-first. -/
theorem job_params_chunking (startDate bufferDays endDate : Int)
    (h : startDate - bufferDays ≤ endDate) :
    (∀ c ∈ job_params startDate bufferDays endDate,
        1 ≤ c.length ∧ c.length ≤ INSIGHTS_BATCH_SIZE)
    ∧ (∀ c ∈ job_params startDate bufferDays endDate, ∀ r ∈ c, r.1 = r.2)
    ∧ ((job_params startDate bufferDays endDate).flatten).Pairwise
        (fun a b => b.1 < a.1)
    ∧ (∃ c, (job_params startDate bufferDays endDate).getLast? = some c
        ∧ (startDate - bufferDays, startDate - bufferDays) ∈ c)
    ∧ ((job_params_chunks 0 20).map List.length = [7, 7, 7]
        ∧ 20 ≤ ((job_params_chunks 0 20).flatten.map Prod.fst).dedup.length
        ∧ ((job_params_chunks 0 20).flatten).Pairwise (fun a b => b.1 < a.1)) := by
  refine ⟨?_, ?_, ?_, ?_, by decide, by decide, by decide⟩
  · intro c hc
    obtain ⟨d, k, hk1, hk2, hck⟩ :=
      job_params_loop_shape (startDate - bufferDays) _ endDate c hc
    rw [hck, timeRangesFor_length]
    exact ⟨hk1, hk2⟩
  · intro c hc r hr
    obtain ⟨d, k, _, _, hck⟩ :=
      job_params_loop_shape (startDate - bufferDays) _ endDate c hc
    rw [hck] at hr
    obtain ⟨i, _, hi⟩ := mem_timeRangesFor.mp hr
    rw [hi]
  · exact job_params_loop_pairwise (startDate - bufferDays) _ endDate
  · exact job_params_loop_last (startDate - bufferDays) _ endDate
      (by omega) h

/-- Claim C3 witness: the 20-day window at buffered start 0 and end 20
produces exactly 3 chunks of 7 day-ranges each. -/
theorem job_params_chunking_witness :
    (job_params_chunks 0 20).map List.length = [7, 7, 7] :=
  (job_params_chunking 20 0 20 (by decide)).2.2.2.2.1



lemma ctxAccum_append (l : List (List Int × List Int)) : ∀ acc g c,
    CtxAccum acc l → c = (acc ++ (l.map (·.1)).flatten ++ g).dropLast →
    CtxAccum acc (l ++ [(g, c)]) := by
  induction l with
  | nil =>
    intro acc g c _ hc
    exact ⟨by simpa using hc, trivial⟩
  | cons x rest ih =>
    intro acc g c hl hc
    obtain ⟨h1, h2⟩ := hl
    refine ⟨h1, ih (acc ++ x.1) g c h2 ?_⟩
    rw [hc]
    simp [List.append_assoc]

lemma ctxAccum_filter (l : List (List Int × List Int)) : ∀ acc,
    CtxAccum acc l → CtxAccum acc (l.filter (fun g => !g.1.isEmpty)) := by
  induction l with
  | nil => intro acc h; exact h
  | cons x rest ih =>
    intro acc hl
    obtain ⟨h1, h2⟩ := hl
    by_cases hx : x.1.isEmpty
    · have hnil : x.1 = [] := by simpa [List.isEmpty_iff] using hx
      rw [List.filter_cons_of_neg (by simp [hx])]
      rw [hnil, List.append_nil] at h2
      exact ih acc h2
    · rw [List.filter_cons_of_pos (by simp [hx])]
      exact ⟨h1, ih (acc ++ x.1) h2⟩

lemma flatten_filter_groups (l : List (List Int × List Int)) :
    ((l.filter (fun g => !g.1.isEmpty)).map (·.1)).flatten
      = (l.map (·.1)).flatten := by
  induction l with
  | nil => rfl
  | cons x rest ih =>
    by_cases hx : x.1.isEmpty
    · have hnil : x.1 = [] := by simpa [List.isEmpty_iff] using hx
      rw [List.filter_cons_of_neg (by simp [hx])]
      simp [hnil, ih]
    · rw [List.filter_cons_of_pos (by simp [hx])]
      simp [ih]

lemma flatten_length_of_all_fifty (l : List (List Int × List Int))
    (h : ∀ g ∈ l, g.1.length = 50) :
    ((l.map (·.1)).flatten).length = 50 * l.length := by
  induction l with
  | nil => rfl
  | cons x rest ih =>
    simp only [List.map_cons, List.flatten_cons, List.length_append,
      List.length_cons]
    rw [h x (by simp), ih (fun g hg => h g (by simp [hg]))]
    ring

lemma batchStep_inv (total : Nat) (p : List Int) (s : BatchState) (x : Int)
    (h : BatchInv total p s) :
    BatchInv total (p ++ [x]) (batchStep total s x) := by
  obtain ⟨hc, hp, hctx, hjoin, hblen, hexec, hctxok, hdiv⟩ := h
  simp only [batchStep, batch_request_size]
  by_cases hb : s.count % 50 = 0
  · rw [if_pos hb]
    refine ⟨by simp [hc], by simp [hp], ?_, ?_, ?_, ?_, ?_, ?_⟩
    · simpa [hp] using (List.dropLast_concat (l := p) (b := x)).symm
    · simp only [List.map_append, List.map_cons, List.flatten_append]
      simp [hjoin]
    · rw [hc] at hb
      rw [if_neg (by simp : ¬ (p ++ [x]).length = 0)]
      simp only [List.length_append, List.length_singleton, List.length_cons,
        List.length_nil]
      omega
    · intro g hg
      rcases List.mem_append.mp hg with hg1 | hg1
      · exact hexec g hg1
      · simp only [List.mem_singleton] at hg1
        subst hg1
        simp only
        rw [hc] at hb
        by_cases hz : p.length = 0
        · left; rw [hblen, if_pos hz]
        · right; rw [hblen, if_neg hz]; omega
    · refine ctxAccum_append s.executed [] s.batch s.ctx hctxok ?_
      rw [hctx]
      simp only [List.nil_append]
      rw [hjoin]
    · simp only [List.length_append, List.length_singleton]
      rw [hdiv, List.replicate_succ']
  · rw [if_neg hb]
    refine ⟨by simp [hc], by simp [hp], ?_, ?_, ?_, hexec, hctxok, hdiv⟩
    · simpa [hp] using (List.dropLast_concat (l := p) (b := x)).symm
    · rw [← List.append_assoc, hjoin]
    · simp only [List.length_append, List.length_singleton]
      rw [hc] at hb
      have hz : p.length ≠ 0 := by
        intro h0
        rw [h0] at hb
        exact hb (by norm_num)
      rw [hblen, if_neg hz]
      simp only [List.length_append, List.length_singleton, if_neg
        (by omega : ¬ p.length + 1 = 0)]
      omega

lemma foldl_batchStep_inv (total : Nat) : ∀ (ids p : List Int)
    (s : BatchState), BatchInv total p s →
    BatchInv total (p ++ ids) (ids.foldl (batchStep total) s) := by
  intro ids
  induction ids with
  | nil => intro p s h; simpa using h
  | cons x rest ih =>
    intro p s h
    have h2 := ih (p ++ [x]) _ (batchStep_inv total p s x h)
    simpa [List.append_assoc] using h2

lemma batchInv_init (total : Nat) : BatchInv total [] ⟨[], [], [], [], 0, []⟩ := by
  refine ⟨rfl, rfl, rfl, rfl, ?_, ?_, trivial, rfl⟩
  · simp
  · intro g hg; simp at hg

/-- The final state of `fetch_creative_in_batch` satisfies the batch
invariant extended by the trailing flush. -/
lemma fetch_creative_in_batch_spec (ids : List Int) :
    ((fetch_creative_in_batch ids).executed.map (·.1)).flatten = ids
    ∧ (∀ g ∈ (fetch_creative_in_batch ids).executed,
        g.1.length = 0 ∨ (1 ≤ g.1.length ∧ g.1.length ≤ 50))
    ∧ CtxAccum [] (fetch_creative_in_batch ids).executed
    ∧ (fetch_creative_in_batch ids).divisors
        = List.replicate (fetch_creative_in_batch ids).executed.length ids.length
    ∧ ((fetch_creative_in_batch ids).executed.map (·.1)).flatten.length
        = ids.length
    ∧ (∀ g ∈ (fetch_creative_in_batch ids).executed.dropLast,
        g.1.length = 0 ∨ g.1.length = 50)
    ∧ (ids ≠ [] → ∃ gl, (fetch_creative_in_batch ids).executed.getLast? = some gl
        ∧ gl.1.length = (ids.length - 1) % 50 + 1) := by
  have hinv := foldl_batchStep_inv ids.length ids [] ⟨[], [], [], [], 0, []⟩
    (batchInv_init ids.length)
  simp only [List.nil_append] at hinv
  obtain ⟨hc, hp, hctx, hjoin, hblen, hexec, hctxok, hdiv⟩ := hinv
  set L := ids.foldl (batchStep ids.length) ⟨[], [], [], [], 0, []⟩ with hL
  have hfetch : fetch_creative_in_batch ids =
      { L with executed := L.executed ++ [(L.batch, L.ctx)], batch := [],
               divisors := L.divisors ++ [ids.length] } := rfl
  rw [hfetch]
  refine ⟨?_, ?_, ?_, ?_, ?_, ?_, ?_⟩
  · simp only [List.map_append, List.map_cons, List.map_nil,
      List.flatten_append, List.flatten_cons, List.flatten_nil,
      List.append_nil]
    exact hjoin
  · intro g hg
    rcases List.mem_append.mp hg with hg1 | hg1
    · rcases hexec g hg1 with h0 | h50
      · exact Or.inl h0
      · exact Or.inr ⟨by omega, by omega⟩
    · simp only [List.mem_singleton] at hg1
      subst hg1
      simp only
      by_cases hz : ids.length = 0
      · left; rw [hblen, if_pos hz]
      · right
        rw [hblen, if_neg hz]
        constructor <;> omega
  · refine ctxAccum_append L.executed [] L.batch L.ctx hctxok ?_
    rw [hctx]
    simp only [List.nil_append]
    rw [hjoin]
  · simp only [List.length_append, List.length_singleton]
    rw [hdiv, List.replicate_succ']
  · simp only [List.map_append, List.map_cons, List.map_nil,
      List.flatten_append, List.flatten_cons, List.flatten_nil,
      List.append_nil]
    rw [hjoin]
  · intro g hg
    rw [List.dropLast_concat] at hg
    exact hexec g hg
  · intro hne
    refine ⟨(L.batch, L.ctx), by rw [List.getLast?_concat], ?_⟩
    simp only
    rw [hblen, if_neg (by simpa [List.length_eq_zero] using hne)]

lemma dispatchedGroups_spec (ids : List Int) (hne : ids ≠ []) :
    ((dispatchedGroups ids).map (·.1)).flatten = ids
    ∧ (∀ g ∈ dispatchedGroups ids, 1 ≤ g.1.length ∧ g.1.length ≤ 50)
    ∧ CtxAccum [] (dispatchedGroups ids)
    ∧ (dispatchedGroups ids).length = (ids.length + 49) / 50 := by
  obtain ⟨hjoin, hall, hctx, hdiv, hlen, hdrop, hlast⟩ :=
    fetch_creative_in_batch_spec ids
  obtain ⟨gl, hgl, hgll⟩ := hlast hne
  have hEne : (fetch_creative_in_batch ids).executed ≠ [] := by
    intro h0
    rw [h0] at hgl
    simp at hgl
  have hE : (fetch_creative_in_batch ids).executed
      = (fetch_creative_in_batch ids).executed.dropLast ++ [gl] := by
    rw [List.getLast?_eq_getLast _ hEne] at hgl
    have := List.dropLast_append_getLast hEne
    rw [Option.some_inj.mp hgl] at this
    exact this.symm
  have hNpos : 1 ≤ ids.length := by
    cases ids with
    | nil => exact absurd rfl hne
    | cons a l => simp
  have hglne : ¬ gl.1.isEmpty = true := by
    rw [List.isEmpty_iff, ← List.length_eq_zero]
    omega
  have hfilter : dispatchedGroups ids
      = (fetch_creative_in_batch ids).executed.dropLast.filter
          (fun g => !g.1.isEmpty) ++ [gl] := by
    rw [dispatchedGroups, hE, List.filter_append]
    simp [hglne]
  have hfifty : ∀ g ∈ (fetch_creative_in_batch ids).executed.dropLast.filter
      (fun g => !g.1.isEmpty), g.1.length = 50 := by
    intro g hg
    have hmem := List.mem_of_mem_filter hg
    have hprop := List.of_mem_filter hg
    simp only [Bool.not_eq_true'] at hprop
    rcases hdrop g hmem with h0 | h50
    · exfalso
      rw [List.length_eq_zero] at h0
      rw [h0] at hprop
      simp at hprop
    · exact h50
  have hflat : ((dispatchedGroups ids).map (·.1)).flatten = ids := by
    rw [dispatchedGroups, flatten_filter_groups]
    exact hjoin
  refine ⟨hflat, ?_, ?_, ?_⟩
  · intro g hg
    have hmem := List.mem_of_mem_filter hg
    have hprop := List.of_mem_filter hg
    rcases hall g hmem with h0 | h15
    · exfalso
      simp [List.isEmpty_iff, List.length_eq_zero.mp h0] at hprop
    · exact h15
  · exact ctxAccum_filter _ [] hctx
  · have hflatlen : ((dispatchedGroups ids).map (·.1)).flatten.length
        = ids.length := by rw [hflat]
    rw [hfilter] at hflatlen
    rw [List.map_append, List.flatten_append, List.length_append] at hflatlen
    rw [flatten_length_of_all_fifty _ hfifty] at hflatlen
    simp only [List.map_cons, List.map_nil, List.flatten_cons,
      List.flatten_nil, List.append_nil] at hflatlen
    rw [hfilter, List.length_append, List.length_singleton]
    omega

set_option maxRecDepth 8000 in
/-- Claim C8 counterexample: in a 120-identifier run the dispatcher
executes three nonempty groups of identifiers 0-49, 50-99 and 100-119,
but the failure context recorded for the first group — the one
containing item 37 — is the 49 identifiers 0-48, not that group of 50,
and the contexts of the later groups are the cumulative prefixes 0-98
and 0-118, which contain identifiers of earlier groups. -/
theorem batch_failure_context_counterexample :
    (dispatchedGroups ((List.range 120).map (fun n => (n : Int)))).map (·.1)
        = [(List.range 50).map (fun n => (n : Int)),
           (List.range' 50 50).map (fun n => (n : Int)),
           (List.range' 100 20).map (fun n => (n : Int))]
    ∧ (dispatchedGroups ((List.range 120).map (fun n => (n : Int)))).map (·.2)
        = [(List.range 49).map (fun n => (n : Int)),
           (List.range 99).map (fun n => (n : Int)),
           (List.range 119).map (fun n => (n : Int))]
    ∧ ¬ (∀ g ∈ dispatchedGroups ((List.range 120).map (fun n => (n : Int))),
          g.2 = g.1) := by
  refine ⟨by decide, by decide, by decide⟩

/-- Claim C8 as amended: the dispatcher partitions the N collected
identifiers into ceil(N/50) consecutive nonempty groups of at most 50
(one additional `execute` call fires on the freshly created empty batch
and dispatches nothing), and a failing item still aborts the whole sync
through the raised fatal error; however, the diagnostic context
recorded for a failing batch is not exactly that group of identifiers:
it is the cumulative prefix of every identifier queued since the start
of the run up to, but excluding, the last identifier added before that
batch executed (`CtxAccum`), because `processing_id_list` is never
reset between batches and the shared `info` dict is mutated in place. -/
theorem batch_dispatch_amended (ids : List Int) (hne : ids ≠ []) :
    ((dispatchedGroups ids).map (·.1)).flatten = ids
    ∧ (∀ g ∈ dispatchedGroups ids,
        1 ≤ g.1.length ∧ g.1.length ≤ batch_request_size)
    ∧ (dispatchedGroups ids).length = (ids.length + 49) / 50
    ∧ CtxAccum [] (dispatchedGroups ids) := by
  obtain ⟨h1, h2, h3, h4⟩ := dispatchedGroups_spec ids hne
  exact ⟨h1, fun g hg => ⟨(h2 g hg).1, (h2 g hg).2⟩, h4, h3⟩

/-- Claim C8 witness: a three-identifier run dispatches one group
holding exactly those identifiers. -/
theorem batch_dispatch_amended_witness :
    ((dispatchedGroups [5, 6, 7]).map (·.1)).flatten = [5, 6, 7] :=
  (batch_dispatch_amended [5, 6, 7] (by decide)).1

lemma collect_fold_nodup (ads : List Int) : ∀ acc : List Int, acc.Nodup →
    (ads.foldl (fun acc a => if a ∈ acc then acc else acc ++ [a]) acc).Nodup := by
  induction ads with
  | nil => intro acc h; exact h
  | cons a rest ih =>
    intro acc hacc
    simp only [List.foldl_cons]
    by_cases ha : a ∈ acc
    · rw [if_pos ha]
      exact ih acc hacc
    · rw [if_neg ha]
      refine ih (acc ++ [a]) ?_
      simpa [List.concat_eq_append] using hacc.concat ha

lemma collect_fold_mem (ads : List Int) : ∀ (acc : List Int) (x : Int),
    x ∈ ads.foldl (fun acc a => if a ∈ acc then acc else acc ++ [a]) acc
      ↔ x ∈ acc ∨ x ∈ ads := by
  induction ads with
  | nil => intro acc x; simp
  | cons a rest ih =>
    intro acc x
    simp only [List.foldl_cons]
    by_cases ha : a ∈ acc
    · rw [if_pos ha, ih acc x]
      constructor
      · rintro (h | h)
        · exact Or.inl h
        · exact Or.inr (by simp [h])
      · rintro (h | h)
        · exact Or.inl h
        · rcases List.mem_cons.mp h with h1 | h1
          · exact Or.inl (h1 ▸ ha)
          · exact Or.inr h1
    · rw [if_neg ha, ih (acc ++ [a]) x]
      simp only [List.mem_append, List.mem_singleton, List.mem_cons]
      tauto

/-- Claim C10: the creative identifiers collected from the parent ad
listing are deduplicated before dispatch — the collected list is
duplicate-free and consists exactly of the creative ids of the listed
ads, and the batch run dispatches exactly that list, so each distinct
identifier is dispatched at most once; when the listing yields no
creative identifiers the batch fetch is not invoked at all, and every
progress-percentage division an invoked batch fetch performs divides by
the positive total identifier count. -/
theorem adcreative_dedup_no_div_by_zero (ads : List Int) :
    (collectCreativeIds ads).Nodup
    ∧ (∀ x, x ∈ collectCreativeIds ads ↔ x ∈ ads)
    ∧ (collectCreativeIds ads = [] → adcreativeSync ads = none)
    ∧ (∀ s, adcreativeSync ads = some s →
        ((dispatchedGroups (collectCreativeIds ads)).map (·.1)).flatten
            = collectCreativeIds ads
        ∧ (∀ d ∈ s.divisors, d = (collectCreativeIds ads).length ∧ 0 < d)) := by
  refine ⟨collect_fold_nodup ads [] List.nodup_nil, ?_, ?_, ?_⟩
  · intro x
    rw [collectCreativeIds, collect_fold_mem ads [] x]
    simp
  · intro h
    rw [adcreativeSync, h]
    simp
  · intro s hs
    rw [adcreativeSync] at hs
    by_cases hne : (collectCreativeIds ads).isEmpty
    · rw [if_pos (by simpa using hne)] at hs
      exact absurd hs (by simp)
    · rw [if_neg (by simpa using hne)] at hs
      have hids : collectCreativeIds ads ≠ [] := by
        simpa [List.isEmpty_iff] using hne
      obtain ⟨hflat, _, _, _⟩ := dispatchedGroups_spec _ hids
      refine ⟨hflat, ?_⟩
      intro d hd
      obtain ⟨_, _, _, hdiv, _, _, _⟩ :=
        fetch_creative_in_batch_spec (collectCreativeIds ads)
      rw [Option.some_inj.mp hs.symm] at hd
      rw [hdiv] at hd
      have hdq := List.eq_of_mem_replicate hd
      have hpos : 0 < (collectCreativeIds ads).length :=
        List.length_pos.mpr hids
      exact ⟨hdq, hdq ▸ hpos⟩

/-- Claim C10 witness: listing ads referencing creatives 3, 1, 3, 1
collects the duplicate-free list and the invoked batch fetch divides
only by the positive total 2. -/
theorem adcreative_dedup_no_div_by_zero_witness :
    (collectCreativeIds [3, 1, 3, 1]).Nodup
    ∧ (∀ d ∈ (fetch_creative_in_batch (collectCreativeIds [3, 1, 3, 1])).divisors,
        d = (collectCreativeIds [3, 1, 3, 1]).length ∧ 0 < d) :=
  ⟨(adcreative_dedup_no_div_by_zero [3, 1, 3, 1]).1,
   ((adcreative_dedup_no_div_by_zero [3, 1, 3, 1]).2.2.2
      (fetch_creative_in_batch (collectCreativeIds [3, 1, 3, 1]))
      (by decide)).2⟩

/-- Claim C9 counterexample: with the "only active" flag set and an
explicit identifier allow-list configured, the request for the
status-bearing stream `ads` carries only the id filter: the
active-status filter is not added in the allow-list mode, because the
augmentation happens inside the branch taken only when no ids are
specified. -/
theorem only_active_allow_list_counterexample :
    buildFiltering ⟨[7], false, true, 0, 0⟩ "ads" = [.idList [7]]
    ∧ ReqFilter.onlyActive ∉ buildFiltering ⟨[7], false, true, 0, 0⟩ "ads" := by
  refine ⟨by decide, by decide⟩

/-- Claim C9 as amended: with the "only active" flag configured and a
mutable, status-bearing entity type, the list request is augmented with
the active-status-only filter in the date-time range mode and in the
no-filter mode, but not in the explicit identifier allow-list mode,
which keeps only the id filter. -/
theorem only_active_augmentation (cfg : IterConfig) (name : String)
    (hactive : cfg.only_active = true) (hname : name ∈ statusBearingNames) :
    (cfg.specified_ids = [] → cfg.only_time_range = true →
        buildFiltering cfg name
          = [.timeRange cfg.startTs (cfg.endTs + 86400 - 1), .onlyActive])
    ∧ (cfg.specified_ids = [] → cfg.only_time_range = false →
        buildFiltering cfg name = [.onlyActive])
    ∧ (cfg.specified_ids = [] →
        ReqFilter.onlyActive ∈ buildFiltering cfg name)
    ∧ (cfg.specified_ids ≠ [] →
        buildFiltering cfg name = [.idList cfg.specified_ids]) := by
  have hmem : decide (name ∈ statusBearingNames) = true := decide_eq_true hname
  refine ⟨?_, ?_, ?_, ?_⟩
  · intro hids htr
    simp [buildFiltering, hids, htr, hactive, hname]
  · intro hids htr
    simp [buildFiltering, hids, htr, hactive, hname]
  · intro hids
    by_cases htr : cfg.only_time_range
    · simp [buildFiltering, hids, htr, hactive, hname]
    · simp [buildFiltering, hids, htr, hactive, hname]
  · intro hids
    simp [buildFiltering, hids]

/-- Claim C9 witness: in a configuration with the flag set, no ids and
no time range, the `campaigns` request is exactly the active-status
filter. -/
theorem only_active_augmentation_witness :
    buildFiltering ⟨[], false, true, 0, 0⟩ "campaigns" = [.onlyActive] :=
  (only_active_augmentation ⟨[], false, true, 0, 0⟩ "campaigns" rfl
    (by decide)).2.1 rfl rfl

end TapFacebook
